import Mathlib

/-!
Verification of the spike-raster plotting engine (`spikeplot.py` and its
legacy `attic/spikeplot.py` variant).

The embedding models:
* `npround` — numpy's `np.round` (round half to even) on an ordered field;
* `periodQ` / `periodR` — the synthesis-period computation
  `int(np.round((100000/time) / count))` of `animfun`, in exact rational
  arithmetic for the non-logarithmic path and over the reals (with
  `Real.log`) for the logarithmic path;
* `pruneFront`, `codeTick`, `channelTick` — the per-channel window update
  performed by one call of `animfun` (append, prune, shift, gated on
  `connected[0] and count > 0`);
* `threadfunStep` — one iteration of the receiver thread `threadfun`,
  with `struct.unpack`'s length check modelled as an error result
  (an uncaught `struct.error` kills the thread);
* `animateSerialRow` — one row update of the legacy one-hot
  `animate_serial`.
-/

/-- numpy's `np.round` (round half to even, a.k.a. banker's rounding):
the nearest integer, ties going to the even neighbour.  `Int.fract x = 1/2`
identifies the tie case; otherwise ordinary rounding `round` applies. -/
def npround {α : Type} [LinearOrderedField α] [FloorRing α] [DecidableEq α] (x : α) : ℤ :=
  if Int.fract x = 1 / 2 then (if ⌊x⌋ % 2 = 0 then ⌊x⌋ else ⌊x⌋ + 1) else round x

section NproundLemmas

variable {α : Type} [LinearOrderedField α] [FloorRing α] [DecidableEq α]

lemma npround_of_fract_ne {x : α} (h : Int.fract x ≠ 1 / 2) : npround x = round x := by
  unfold npround
  rw [if_neg h]

lemma floor_le_npround (x : α) : ⌊x⌋ ≤ npround x := by
  unfold npround
  split
  · split <;> omega
  · rw [round_eq]
    exact Int.floor_mono (by linarith)

lemma npround_le_floor_add_one (x : α) : npround x ≤ ⌊x⌋ + 1 := by
  unfold npround
  split
  · split <;> omega
  · rw [round_eq]
    calc ⌊x + 1 / 2⌋ ≤ ⌊x + 1⌋ := Int.floor_mono (by linarith)
      _ = ⌊x⌋ + 1 := Int.floor_add_one x

lemma npround_mono {x y : α} (hxy : x ≤ y) : npround x ≤ npround y := by
  by_cases hx : Int.fract x = 1 / 2
  · -- x is a tie; x = ⌊x⌋ + 1/2
    have hxval : x = (⌊x⌋ : α) + 1 / 2 := by
      have h := Int.floor_add_fract x
      rw [hx] at h
      linarith
    by_cases hy : Int.fract y = 1 / 2
    · have hyval : y = (⌊y⌋ : α) + 1 / 2 := by
        have h := Int.floor_add_fract y
        rw [hy] at h
        linarith
      rcases lt_or_eq_of_le (Int.floor_mono hxy) with hf | hf
      · calc npround x ≤ ⌊x⌋ + 1 := npround_le_floor_add_one x
          _ ≤ ⌊y⌋ := by omega
          _ ≤ npround y := floor_le_npround y
      · have hxy2 : x = y := by rw [hxval, hyval, hf]
        rw [hxy2]
    · -- y is not a tie: npround y = ⌊y + 1/2⌋ and y + 1/2 ≥ ⌊x⌋ + 1
      rw [npround_of_fract_ne hy, round_eq]
      have h1 : ((⌊x⌋ + 1 : ℤ) : α) ≤ y + 1 / 2 := by
        push_cast
        rw [hxval] at hxy
        linarith
      calc npround x ≤ ⌊x⌋ + 1 := npround_le_floor_add_one x
        _ ≤ ⌊y + 1 / 2⌋ := Int.le_floor.2 h1
  · rw [npround_of_fract_ne hx, round_eq]
    by_cases hy : Int.fract y = 1 / 2
    · -- y is a tie, x < y strictly, so x + 1/2 < ⌊y⌋ + 1
      have hyval : y = (⌊y⌋ : α) + 1 / 2 := by
        have h := Int.floor_add_fract y
        rw [hy] at h
        linarith
      have hne : x ≠ y := fun h => hx (h ▸ hy)
      have hlt : x < y := lt_of_le_of_ne hxy hne
      have h2 : ⌊x + 1 / 2⌋ ≤ ⌊y⌋ := by
        have h3 : x + 1 / 2 < ((⌊y⌋ + 1 : ℤ) : α) := by
          push_cast
          rw [hyval] at hlt
          linarith
        have := Int.floor_lt.2 h3
        omega
      exact h2.trans (floor_le_npround y)
    · rw [npround_of_fract_ne hy, round_eq]
      exact Int.floor_mono (by linarith)

end NproundLemmas

/-!
## The scheduler and window of `animfun` (src/spikeplot.py)

A spike line is drawn at x-coordinates `(100, 100)`; only the first
coordinate matters for prune/shift, so a `SpikeEvent` is a single integer
position and a `Window` (a spiketrain's `lines` list) is a `List ℤ` in
insertion order, oldest first.
-/

/-- The synthesis-period computation of `animfun` for the
non-logarithmic path, in exact arithmetic:
`period = int(np.round((100000/time) / count))` with `count = rawcount`.
(`int` truncation is the identity on the already-integral `np.round` result.) -/
def periodQ (time : ℚ) (rawcount : ℕ) : ℤ :=
  npround ((100000 / time) / (rawcount : ℚ))

/-- `count = np.log(rawcount+1) if logarithmic else rawcount`
(line 58 of `animfun`). -/
noncomputable def animCount (logarithmic : Bool) (rawcount : ℕ) : ℝ :=
  if logarithmic then Real.log ((rawcount : ℝ) + 1) else (rawcount : ℝ)

/-- The synthesis-period computation of `animfun` over the reals,
covering both the logarithmic and the raw path:
`period = int(np.round((100000/time) / count))`. -/
noncomputable def periodR (time : ℝ) (logarithmic : Bool) (rawcount : ℕ) : ℤ :=
  npround ((100000 / time) / animCount logarithmic rawcount)

/-- `lw = 20 if period == 0 else 1` (line 74 of `animfun`). -/
def lineWidth (period : ℤ) : ℕ :=
  if period = 0 then 20 else 1

/-- The prune step of `animfun` (lines 82-83):
`if len(lines) > 0 and lines[0][0].get_xdata()[0] < 0: lines.pop(0)` —
at most the single oldest line is removed, and only when its position is
already below 0. -/
def pruneFront : List ℤ → List ℤ
  | [] => []
  | x :: rest => if x < 0 then rest else x :: rest

/-- One window update of `animfun` for a channel that passed the
`connected[0] and count > 0` gate, in the code's order:
(1) if the emit condition held, append a new line at x = 100;
(2) prune at most the front line if its position is below 0;
(3) shift every line left by one. -/
def codeTick (doAppend : Bool) (w : List ℤ) : List ℤ :=
  (pruneFront (if doAppend then w ++ [100] else w)).map (fun x => x - 1)

/-- One full per-channel update of `animfun` (non-logarithmic path):
everything — append, prune and shift — happens only under
`connected[0] and count > 0`; otherwise the window is untouched.
The emit condition is `period == 0 or ticks[0] % period == 0`. -/
def channelTick (connected : Bool) (rawcount : ℕ) (time : ℚ) (tick : ℕ)
    (w : List ℤ) : List ℤ :=
  if connected = true ∧ 0 < rawcount then
    codeTick (decide (periodQ time rawcount = 0 ∨
      (tick : ℤ) % periodQ time rawcount = 0)) w
  else w

/-- Modelled from the spec (§4.4 Window), for comparison with `codeTick`:
the three-phase reference order the spec describes — first shift every
existing event left, then prune every event below 0, then (if emitting)
append the new event at the rightmost position `W - 1 = 99`. -/
def specRefTick (doAppend : Bool) (w : List ℤ) : List ℤ :=
  let w1 := w.map (fun x => x - 1)
  let w2 := w1.filter (fun x => decide (0 ≤ x))
  if doAppend then w2 ++ [99] else w2

/-- Windows reachable by the engine for one channel: start empty, and on
every render tick apply `channelTick` with an arbitrary connection state,
reported rate, configured time span and tick counter. -/
inductive ReachWindow : List ℤ → Prop
  | init : ReachWindow []
  | tick (connected : Bool) (rawcount : ℕ) (time : ℚ) (tk : ℕ) {w : List ℤ} :
      ReachWindow w → ReachWindow (channelTick connected rawcount time tk w)

/-!
## The receiver thread `threadfun` (src/spikeplot.py)

`counts = unpack('I'*n_neurons, client.recv(4*n_neurons))` — `struct.unpack`
raises `struct.error` whenever the received buffer is not exactly
`4*n_neurons` bytes (in particular on the zero-length read a disconnect
produces); an uncaught exception terminates the thread, which is modelled
as `Except.error ()`.  On success, each spiketrain's `count` is
overwritten from the decoded vector.
-/

/-- Decode consecutive little-endian 4-byte groups as unsigned 32-bit
integers (the payload of `unpack('I'*n, buf)`). -/
def bytesToU32s : List ℕ → List ℕ
  | b0 :: b1 :: b2 :: b3 :: rest =>
      (b0 + 256 * b1 + 65536 * b2 + 16777216 * b3) :: bytesToU32s rest
  | _ => []

/-- `struct.unpack('I'*n, buf)`: fails (raises `struct.error`) unless the
buffer is exactly `4*n` bytes, otherwise yields the `n` decoded counts. -/
def unpackU32 (n : ℕ) (buf : List ℕ) : Option (List ℕ) :=
  if buf.length = 4 * n then some (bytesToU32s buf) else none

/-- The shared state the receiver thread writes: the per-spiketrain
`count` fields and the `connected[0]` flag. -/
structure RateState where
  counts : List ℕ
  connected : Bool
deriving DecidableEq, Repr

/-- One iteration of `threadfun` (lines 40-46): receive and unpack a
frame; if the unpack succeeds and yields a non-empty tuple, overwrite the
per-channel counts, and if it yields an empty tuple set
`connected[0] = False`.  An unpack failure propagates as an uncaught
exception (`Except.error`), killing the thread. -/
def threadfunStep (n_neurons : ℕ) (buf : List ℕ) (st : RateState) :
    Except Unit RateState :=
  match unpackU32 n_neurons buf with
  | none => Except.error ()
  | some counts =>
      if 0 < counts.length then Except.ok { st with counts := counts }
      else Except.ok { st with connected := false }

/-!
## The legacy one-hot path (src/attic/spikeplot.py, `animate_serial`)

Each channel's trace is a 0/1 array `ydata` of length 100; `serial_thread`
stores the most recently named channel in `newspike[0]` (initially the
out-of-band sentinel -1).  `animate_serial` does, per row:
`roll -1; ydata[-1] = 1 if row == newspike[0] else 0; roll -1; ydata[-1] = 0`.
-/

/-- `np.roll(y, -1)`: rotate left by one (the first entry wraps to the
end); the identity on the empty array. -/
def rollLeft1 : List ℕ → List ℕ
  | [] => []
  | a :: l => l ++ [a]

/-- `ydata[-1] = v`: replace the last entry.  (The program's arrays are
always non-empty, of length 100.) -/
def setLast (v : ℕ) (y : List ℕ) : List ℕ :=
  y.dropLast ++ [v]

/-- One row update of `animate_serial` (lines 39-45 of the attic file):
roll left, write `1` at the end iff this row is the channel named by
`newspike[0]`, roll left again, zero the end. -/
def animateSerialRow (newspike : ℤ) (row : ℕ) (y : List ℕ) : List ℕ :=
  setLast 0 (rollLeft1 (setLast (if (row : ℤ) = newspike then 1 else 0)
    (rollLeft1 y)))

/-- Number of spike events visible in a 0/1 trace: the entries equal to 1. -/
def eventCount (y : List ℕ) : ℕ :=
  y.countP (fun v => v == 1)

/-!
## Helper lemmas
-/

lemma npround_intCast {α : Type} [LinearOrderedField α] [FloorRing α]
    [DecidableEq α] (n : ℤ) : npround ((n : α)) = n := by
  unfold npround
  rw [Int.fract_intCast]
  norm_num

lemma animCount_log_one : animCount true 1 = Real.log 2 := by
  unfold animCount
  norm_num

lemma hundred_div_log_two_bounds :
    (144 : ℝ) ≤ 100 / Real.log 2 ∧ 100 / Real.log 2 < 144.5 := by
  have h0 : (0 : ℝ) < Real.log 2 := Real.log_pos (by norm_num)
  constructor
  · rw [le_div_iff₀ h0]
    nlinarith [Real.log_two_lt_d9]
  · rw [div_lt_iff₀ h0]
    nlinarith [Real.log_two_gt_d9]

lemma periodR_log_one : periodR 1000 true 1 = 144 := by
  have h0 : (0 : ℝ) < Real.log 2 := Real.log_pos (by norm_num)
  have hx : (100000 / (1000 : ℝ)) / animCount true 1 = 100 / Real.log 2 := by
    rw [animCount_log_one]
    norm_num
  obtain ⟨hl, hr⟩ := hundred_div_log_two_bounds
  have hfl : ⌊(100 : ℝ) / Real.log 2⌋ = 144 := by
    rw [Int.floor_eq_iff]
    constructor
    · exact_mod_cast hl
    · push_cast
      linarith
  have hfr : Int.fract ((100 : ℝ) / Real.log 2) ≠ 1 / 2 := by
    rw [Int.fract, hfl]
    intro h
    push_cast at h
    linarith
  unfold periodR
  rw [hx, npround_of_fract_ne hfr, round_eq]
  rw [Int.floor_eq_iff]
  constructor
  · push_cast
    linarith
  · push_cast
    linarith

lemma periodR_raw_one : periodR 1000 false 1 = 100 := by
  have h : (100000 / (1000 : ℝ)) / animCount false 1 = ((100 : ℤ) : ℝ) := by
    unfold animCount
    norm_num
  unfold periodR
  rw [h, npround_intCast]

lemma pruneFront_sublist (w : List ℤ) : List.Sublist (pruneFront w) w := by
  cases w with
  | nil => simp [pruneFront]
  | cons x rest =>
      simp only [pruneFront]
      split
      · exact List.sublist_cons_self x rest
      · exact List.Sublist.refl _

lemma pruneFront_append_nonneg (w : List ℤ) (a : ℤ) (ha : 0 ≤ a) :
    pruneFront (w ++ [a]) = pruneFront w ++ [a] := by
  cases w with
  | nil =>
      rw [List.nil_append]
      simp [pruneFront, not_lt.2 ha]
  | cons x rest =>
      rw [List.cons_append]
      simp only [pruneFront]
      split <;> simp

lemma codeTick_single (q : ℤ) (hq : 0 ≤ q) : codeTick false [q] = [q - 1] := by
  unfold codeTick
  simp [pruneFront, not_lt.2 hq]

lemma codeTick_iterate_single (k : ℕ) (p : ℤ) (hk : (k : ℤ) ≤ p + 1) :
    (codeTick false)^[k] [p] = [p - k] := by
  induction k with
  | zero => simp
  | succ n ih =>
      have hn : (n : ℤ) ≤ p + 1 := by push_cast at hk ⊢; omega
      have hge : 0 ≤ p - n := by push_cast at hk; omega
      rw [Function.iterate_succ_apply', ih hn, codeTick_single _ hge]
      congr 1
      push_cast
      ring

/-- Invariant maintained by the window at every tick boundary: positions
are strictly increasing in insertion order (oldest leftmost) and no
position exceeds the right edge 99. -/
def WInv (w : List ℤ) : Prop :=
  w.Pairwise (· < ·) ∧ ∀ x ∈ w, x ≤ 99

lemma WInv_codeTick (b : Bool) (w : List ℤ) (h : WInv w) :
    WInv (codeTick b w) := by
  obtain ⟨hp, hb⟩ := h
  set w1 := if b then w ++ [100] else w with hw1
  have hcases : w1 = w ∨ w1 = w ++ [100] := by
    rw [hw1]
    cases b
    · exact Or.inl (by simp)
    · exact Or.inr (by simp)
  have h1p : w1.Pairwise (· < ·) := by
    rcases hcases with hc | hc <;> rw [hc]
    · exact hp
    · rw [List.pairwise_append]
      refine ⟨hp, List.pairwise_singleton _ _, ?_⟩
      intro a ha c hc2
      rw [List.mem_singleton] at hc2
      subst hc2
      exact lt_of_le_of_lt (hb a ha) (by norm_num)
  have h1b : ∀ x ∈ w1, x ≤ 100 := by
    rcases hcases with hc | hc <;> rw [hc]
    · exact fun x hx => (hb x hx).trans (by norm_num)
    · intro x hx
      rcases List.mem_append.1 hx with hx | hx
      · exact (hb x hx).trans (by norm_num)
      · rw [List.mem_singleton] at hx
        omega
  have hct : codeTick b w = (pruneFront w1).map (fun x => x - 1) := by
    rw [hw1]
    rfl
  rw [hct]
  have hsub := pruneFront_sublist w1
  have h2p : (pruneFront w1).Pairwise (· < ·) := h1p.sublist hsub
  have h2b : ∀ x ∈ pruneFront w1, x ≤ 100 :=
    fun x hx => h1b x (hsub.mem hx)
  constructor
  · exact List.Pairwise.map _ (fun a c hac => by omega) h2p
  · intro x hx
    rw [List.mem_map] at hx
    obtain ⟨y, hy, rfl⟩ := hx
    have := h2b y hy
    omega

lemma WInv_channelTick (c : Bool) (rc : ℕ) (t : ℚ) (tk : ℕ) (w : List ℤ)
    (h : WInv w) : WInv (channelTick c rc t tk w) := by
  unfold channelTick
  split
  · exact WInv_codeTick _ _ h
  · exact h

lemma WInv_reach (w : List ℤ) (h : ReachWindow w) : WInv w := by
  induction h with
  | init => exact ⟨List.Pairwise.nil, by simp⟩
  | tick c rc t tk hw ih => exact WInv_channelTick _ _ _ _ _ ih

lemma live_le_of_WInv (w : List ℤ) (h : WInv w) :
    (w.filter (fun x => decide (0 ≤ x))).length ≤ 100 := by
  obtain ⟨hp, hb⟩ := h
  have hsub : List.Sublist (w.filter (fun x => decide (0 ≤ x))) w :=
    List.filter_sublist w
  have hlp : (w.filter (fun x => decide (0 ≤ x))).Pairwise (· < ·) :=
    hp.sublist hsub
  have hnd : (w.filter (fun x => decide (0 ≤ x))).Nodup :=
    hlp.imp (fun hac => ne_of_lt hac)
  have hmem : (w.filter (fun x => decide (0 ≤ x))).toFinset ⊆
      Finset.Icc (0 : ℤ) 99 := by
    intro x hx
    rw [List.mem_toFinset, List.mem_filter] at hx
    rw [Finset.mem_Icc]
    refine ⟨by simpa using hx.2, hb x hx.1⟩
  have hcard := Finset.card_le_card hmem
  rw [List.toFinset_card_of_nodup hnd, Int.card_Icc] at hcard
  simpa using hcard

lemma bytesToU32s_length : ∀ buf : List ℕ,
    (bytesToU32s buf).length = buf.length / 4
  | [] => by simp [bytesToU32s]
  | [b0] => by simp [show bytesToU32s [b0] = [] from rfl]
  | [b0, b1] => by simp [show bytesToU32s [b0, b1] = [] from rfl]
  | [b0, b1, b2] => by simp [show bytesToU32s [b0, b1, b2] = [] from rfl]
  | b0 :: b1 :: b2 :: b3 :: rest => by
      have ih := bytesToU32s_length rest
      simp only [bytesToU32s, List.length_cons]
      omega

lemma setLast_append (v x : ℕ) (l : List ℕ) :
    setLast v (l ++ [x]) = l ++ [v] := by
  unfold setLast
  rw [List.dropLast_concat]

lemma animateSerialRow_eq (ns : ℤ) (row : ℕ) (a b : ℕ) (rest : List ℕ) :
    animateSerialRow ns row (a :: b :: rest) =
      rest ++ [if (row : ℤ) = ns then 1 else 0, 0] := by
  unfold animateSerialRow
  rw [show rollLeft1 (a :: b :: rest) = (b :: rest) ++ [a] from rfl,
    setLast_append]
  rw [show (b :: rest) ++ [if (row : ℤ) = ns then 1 else 0] =
    b :: (rest ++ [if (row : ℤ) = ns then 1 else 0]) from rfl]
  rw [show rollLeft1 (b :: (rest ++ [if (row : ℤ) = ns then 1 else 0])) =
    (rest ++ [if (row : ℤ) = ns then 1 else 0]) ++ [b] from rfl,
    setLast_append]
  simp

lemma npround_eq_of_lt_half {α : Type} [LinearOrderedField α] [FloorRing α]
    [DecidableEq α] {x : α} {n : ℤ} (h1 : (n : α) ≤ x)
    (h2 : x < (n : α) + 1 / 2) : npround x = n := by
  have hfl : ⌊x⌋ = n := by
    rw [Int.floor_eq_iff]
    refine ⟨h1, by linarith⟩
  have hfr : Int.fract x ≠ 1 / 2 := by
    rw [Int.fract, hfl]
    intro h
    have : x = (n : α) + 1 / 2 := by linarith
    rw [this] at h2
    linarith
  rw [npround_of_fract_ne hfr, round_eq, Int.floor_eq_iff]
  constructor
  · linarith
  · linarith

lemma periodQ_eval (time : ℚ) (rawcount : ℕ) (n : ℤ)
    (h1 : (n : ℚ) ≤ (100000 / time) / (rawcount : ℚ))
    (h2 : (100000 / time) / (rawcount : ℚ) < (n : ℚ) + 1 / 2) :
    periodQ time rawcount = n := by
  unfold periodQ
  exact npround_eq_of_lt_half h1 h2

lemma periodQ_1000_25 : periodQ 1000 25 = 4 :=
  periodQ_eval 1000 25 4 (by norm_num) (by norm_num)

lemma periodQ_1000_50 : periodQ 1000 50 = 2 :=
  periodQ_eval 1000 50 2 (by norm_num) (by norm_num)

lemma periodQ_1000_250 : periodQ 1000 250 = 0 :=
  periodQ_eval 1000 250 0 (by norm_num) (by norm_num)

/-!
## Claims

Each claim of the specification is settled by one theorem below
(with a counterexample theorem where the claim as stated fails on the
code, and a witness theorem where the main theorem has hypotheses).
-/

/-- C1, counterexample: the claim states that the synthesis period is
always computed from the raw reported rate, `round(ticks_per_window /
rawcount)`.  At `time = 1000` ms (so `ticks_per_window = 100`),
`rawcount = 1` and the logarithmic flag set, the claim predicts period
`round(100 / 1) = 100`; the code divides by `log(rawcount + 1) = log 2`
instead and yields 144. -/
theorem C1_counterexample : periodR 1000 true 1 ≠ 100 := by
  rw [periodR_log_one]
  decide

/-- C1, amended: the logarithmic flag changes the period computation,
not just the display — the period is computed from the transformed count
`log(rawcount + 1)`.  At `time = 1000`, `rawcount = 1` the logarithmic
period is `round(100 / log 2) = 144` while the raw-rate period is 100. -/
theorem C1_amended_log_period :
    periodR 1000 true 1 = 144 ∧ periodR 1000 false 1 = 100 :=
  ⟨periodR_log_one, periodR_raw_one⟩

/-- C2, counterexample: the claim states that on every render tick —
including when the connected flag is false — every existing event is
shifted left by one.  On a disconnected tick with window `[5]`, the code
leaves the window at `[5]`; the claim predicts `[4]`. -/
theorem C2_counterexample :
    channelTick false 50 1000 0 [5] = [5] ∧ ([5] : List ℤ) ≠ [4] := by
  constructor
  · decide
  · decide

/-- C2, amended: shifting (with pruning and appending) happens only on
ticks where the channel is connected and its count is positive; when
disconnected or at rate 0 the window is left completely unchanged, so
after a disconnect existing events stay frozen instead of aging out. -/
theorem C2_amended_frozen_when_gated (connected : Bool) (rawcount : ℕ)
    (time : ℚ) (tk : ℕ) (w : List ℤ)
    (h : connected = false ∨ rawcount = 0) :
    channelTick connected rawcount time tk w = w := by
  unfold channelTick
  rcases h with h | h <;> subst h <;> simp

/-- C2, witness for the amended theorem at a concrete disconnected tick. -/
theorem C2_amended_frozen_when_gated_witness :
    channelTick true 0 1000 3 [7, 2] = [7, 2] :=
  C2_amended_frozen_when_gated true 0 1000 3 [7, 2] (Or.inr rfl)

/-- C3, counterexample: the claim states that when the computed period is
0 no discrete SpikeEvent is synthesized on that tick.  At `time = 1000`,
`rawcount = 250` the period is 0 (`round(100/250) = round(0.4) = 0`),
yet the tick on an empty window appends an event, which ends the tick at
position 99. -/
theorem C3_counterexample :
    periodQ 1000 250 = 0 ∧ channelTick true 250 1000 3 [] = [99] ∧
      channelTick true 250 1000 3 [] ≠ [] := by
  refine ⟨periodQ_1000_250, ?_, ?_⟩ <;>
    · unfold channelTick
      rw [if_pos ⟨rfl, by norm_num⟩, periodQ_1000_250]
      decide

/-- C3, amended: when the period is 0 the channel is indeed rendered with
the thick saturated style (linewidth 20), but the scheduler appends one
(thick) event on every tick — the `period == 0 or ticks % period == 0`
test short-circuits to true — rather than suppressing synthesis; the
accumulating thick lines are what renders the continuous mark. -/
theorem C3_amended_saturated_appends (time : ℚ) (rawcount : ℕ) (tk : ℕ)
    (w : List ℤ) (hc : 0 < rawcount) (hp : periodQ time rawcount = 0) :
    lineWidth (periodQ time rawcount) = 20 ∧
      channelTick true rawcount time tk w = codeTick true w := by
  constructor
  · rw [hp]
    rfl
  · unfold channelTick
    rw [if_pos ⟨rfl, hc⟩, hp]
    simp

/-- C3, witness for the amended theorem at `time = 1000`, `rawcount = 250`. -/
theorem C3_amended_saturated_appends_witness :
    lineWidth (periodQ 1000 250) = 20 ∧
      channelTick true 250 1000 7 [3] = codeTick true [3] :=
  C3_amended_saturated_appends 1000 250 7 [3] (by norm_num) periodQ_1000_250

/-- C4: the claim that a zero-length (or wrong-size) read makes the
Receiver set `connected = false` describes the evident intent of the
dead `else` branch of `threadfun`, but the code cannot reach it:
`struct.unpack` raises before the length test, killing the thread with
`connected` still true.  First conjunct: a zero-byte read (disconnect)
makes the iteration fail with an uncaught exception and no state change.
Second conjunct: whenever `n_neurons > 0`, every non-crashing iteration
leaves `connected` exactly as it was — the `connected[0] = False`
assignment is unreachable. -/
theorem C4_receiver_crash_on_disconnect :
    threadfunStep 1 [] { counts := [0], connected := true } =
      Except.error () ∧
    ∀ (n : ℕ) (buf : List ℕ) (st r : RateState), 0 < n →
      threadfunStep n buf st = Except.ok r → r.connected = st.connected := by
  constructor
  · rfl
  · intro n buf st r hn hok
    unfold threadfunStep unpackU32 at hok
    by_cases hlen : buf.length = 4 * n
    · rw [if_pos hlen] at hok
      dsimp only at hok
      have hpos : 0 < (bytesToU32s buf).length := by
        rw [bytesToU32s_length, hlen]
        omega
      rw [if_pos hpos] at hok
      injection hok with h
      rw [← h]
    · rw [if_neg hlen] at hok
      cases hok

/-- C4, witness: a successful full-frame read (4 bytes for one neuron)
overwrites the counts and leaves `connected` untouched. -/
theorem C4_receiver_crash_on_disconnect_witness :
    (RateState.mk [1] true).connected = (RateState.mk [0] true).connected :=
  C4_receiver_crash_on_disconnect.2 1 [1, 0, 0, 0]
    { counts := [0], connected := true }
    { counts := [1], connected := true } (by norm_num) rfl

/-- C5: in one-hot mode, a frame naming channel `newspike` adds exactly
one new spike to that channel's trace and none to any other channel,
aside from the aging that drops the two oldest cells (`a` and `b`): the
event count of the updated trace plus the aged-out events equals the old
event count plus one exactly when this row is the named channel. -/
theorem C5_onehot_one_event (ns : ℤ) (row : ℕ) (a b : ℕ) (rest : List ℕ) :
    eventCount (animateSerialRow ns row (a :: b :: rest)) +
      eventCount [a, b] =
    eventCount (a :: b :: rest) + (if (row : ℤ) = ns then 1 else 0) := by
  rw [animateSerialRow_eq]
  unfold eventCount
  rw [List.countP_append]
  by_cases h : (row : ℤ) = ns <;> simp [h, List.countP_cons] <;> omega

/-- C6, counterexample: the claim states that each tick equals the
shift-then-prune-then-append reference order.  On the tick with window
`[5, 0]` and no emission, the code produces `[4, -1]` (the event that
reached -1 survives the tick) while the reference order produces `[4]`. -/
theorem C6_counterexample :
    codeTick false [5, 0] = [4, -1] ∧ specRefTick false [5, 0] = [4] ∧
      codeTick false [5, 0] ≠ specRefTick false [5, 0] := by
  refine ⟨by decide, by decide, by decide⟩

/-- C6, amended: the code's order is append (at x = 100), then prune at
most the single oldest line if its position was below 0 before the
shift, then shift all; the freshly appended event is never touched by
the prune and always ends its tick at the rightmost position 99 — an
emitting tick is exactly the non-emitting tick plus the new event:
`codeTick true w = codeTick false w ++ [99]`.  (Unlike the reference
order, an event reaching -1 survives until the next active tick.) -/
theorem C6_amended_append_unpruned (w : List ℤ) :
    codeTick true w = codeTick false w ++ [99] := by
  unfold codeTick
  rw [if_pos rfl, if_neg (by simp),
    pruneFront_append_nonneg w 100 (by norm_num), List.map_append]
  norm_num

/-- C7, counterexample: the claim states that after a tick's prune no
event with position below 0 remains and every event is removed in the
tick its position falls below 0.  On a no-emission tick with window
`[0]` the event falls to -1 during the shift and survives the tick. -/
theorem C7_counterexample :
    codeTick false [0] = [-1] ∧
      ¬ ∀ x ∈ codeTick false [0], (0 : ℤ) ≤ x := by
  decide

/-- C7, amended: the prune step removes at most one event per tick — the
oldest — and only when its position was already below 0 before that
tick's shift; an event with position ≥ 0 is never removed by the prune
(an event that falls below 0 during the shift is removed only at the
next active tick). -/
theorem C7_amended_prune_at_most_front (w : List ℤ) :
    pruneFront w = w ∨ ∃ h, h < 0 ∧ w = h :: pruneFront w := by
  cases w with
  | nil => exact Or.inl rfl
  | cons x rest =>
      by_cases hx : x < 0
      · refine Or.inr ⟨x, hx, ?_⟩
        simp [pruneFront, hx]
      · exact Or.inl (by simp [pruneFront, hx])

/-- C8, counterexample: the claim states a SpikeEvent appended at
position `W - 1 = 99` is pruned after exactly `W = 100` ticks.  After
100 uninterrupted ticks the event is still in the window, at -1. -/
theorem C8_counterexample :
    (codeTick false)^[100] [99] = [-1] ∧
      (codeTick false)^[100] [99] ≠ [] := by
  have h := codeTick_iterate_single 100 99 (by norm_num)
  constructor
  · rw [h]
    norm_num
  · rw [h]
    norm_num

/-- C8, amended: an event at position `p = n` (for the code, a freshly
appended event ends its tick at 99) reaches position -1 after exactly
`n + 1` further ticks and is pruned on the following tick, so it leaves
the window after `n + 2` ticks, one later than the claim's `W`. -/
theorem C8_amended_pruned_one_tick_late (n : ℕ) :
    (codeTick false)^[n + 1] [(n : ℤ)] = [-1] ∧
      (codeTick false)^[n + 2] [(n : ℤ)] = [] := by
  have h1 : (codeTick false)^[n + 1] [(n : ℤ)] = [-1] := by
    have h := codeTick_iterate_single (n + 1) n (by push_cast; omega)
    rw [h]
    congr 1
    push_cast
    ring
  refine ⟨h1, ?_⟩
  have h2 : (codeTick false)^[n + 2] [(n : ℤ)] =
      codeTick false ((codeTick false)^[n + 1] [(n : ℤ)]) := by
    rw [Function.iterate_succ_apply']
  rw [h2, h1]
  decide

/-- C9: at every tick boundary a reachable window holds at most
`W = 100` live events (events at positions 0 through 99) — for every
sequence of connection states, rates, time spans and tick counts.  (The
window list itself can briefly also hold one already-dead event at -1,
awaiting the next active tick's prune.) -/
theorem C9_live_events_bounded (w : List ℤ) (h : ReachWindow w) :
    w.countP (fun x => decide (0 ≤ x)) ≤ 100 := by
  rw [List.countP_eq_length_filter]
  exact live_le_of_WInv w (WInv_reach w h)

/-- C9, witness at the window reached by one connected emitting tick. -/
theorem C9_live_events_bounded_witness :
    (channelTick true 50 1000 0 []).countP (fun x => decide (0 ≤ x)) ≤ 100 :=
  C9_live_events_bounded _ (ReachWindow.tick true 50 1000 0 ReachWindow.init)

/-- C10: the synthesis period `round(n / c)` is non-increasing as the
rate `c` increases (window tick count `n = 100000/time` fixed), and at
`c = 25`, `n = 100` (i.e. `time = 1000` ms) the period is 4. -/
theorem C10_period_nonincreasing :
    periodQ 1000 25 = 4 ∧
    ∀ (time : ℚ) (c c' : ℕ), 0 < time → 0 < c → c ≤ c' →
      periodQ time c' ≤ periodQ time c := by
  refine ⟨periodQ_1000_25, ?_⟩
  intro time c c' ht hc hcc
  unfold periodQ
  apply npround_mono
  have hn : (0 : ℚ) ≤ 100000 / time := by positivity
  have hc0 : (0 : ℚ) < (c : ℚ) := by exact_mod_cast hc
  have hcc0 : (c : ℚ) ≤ (c' : ℚ) := by exact_mod_cast hcc
  gcongr

/-- C10, witness: doubling the rate from 25 to 50 does not increase the
period. -/
theorem C10_period_nonincreasing_witness :
    periodQ 1000 50 ≤ periodQ 1000 25 :=
  C10_period_nonincreasing.2 1000 25 50 (by norm_num) (by norm_num)
    (by norm_num)
